import Mathlib

/-!
Verification of the pybgen BGEN reader (pybgen/pybgen.py) against its
natural-language specification.  The Python source is shallowly embedded:
byte streams are lists of naturals (each < 256), numpy float arrays over the
probabilities become lists of rationals, NaN entries become `none` in
`Option` valued lists, and raised Python exceptions become `Except` errors.
-/

namespace PyBGEN

/-- Distinguishable messages attached to the `ValueError`s raised by the
source (the leading file name of each message is irrelevant and dropped). -/
inductive ErrMsg
  /-- message: invalid BGEN file -/
  | invalidBgenFile
  /-- message: only two alleles are supported -/
  | onlyTwoAlleles
  /-- message: only accepting ploidy of 2 -/
  | onlyPloidy2
  /-- message: only accepting unphased data -/
  | onlyUnphased
  /-- message: ... invalid layout type -/
  | invalidLayoutType
  /-- message: zstandard module is not installed -/
  | zstdNotInstalled
  /-- message: ... name not found -/
  | nameNotFound
  /-- message: invalid mode -/
  | invalidMode
  /-- numpy: buffer size must be a multiple of element size -/
  | bufferSize
  /-- numpy: cannot reshape array -/
  | cannotReshape
  deriving DecidableEq, Repr

/-- Python exceptions escaping the embedded fragments. -/
inductive PyErr
  /-- `raise ValueError(...)`, and numpy `ValueError`s -/
  | valueError (msg : ErrMsg)
  /-- raising the non-exception constant `NotImplemented` calls a
  non-callable object, so the interpreter raises `TypeError` instead -/
  | typeError
  /-- access to an attribute that was never assigned
  (`self._decompress` when the compression field is unknown) -/
  | attributeError
  /-- `struct.unpack` on a buffer shorter than the requested format -/
  | structError
  /-- subscripting a byte string beyond its end -/
  | indexError
  deriving DecidableEq, Repr

/-! ### Byte and bit utilities shared by the embedded functions -/

/-- Fuel-driven worker for `chunkList` (fuel bounds the number of chunks;
`l.length` is always enough fuel when `0 < n`). -/
def chunk_aux (n : Nat) : Nat → List α → List (List α)
  | _, [] => []
  | 0, _ :: _ => []
  | fuel + 1, a :: l => ((a :: l).take n) :: chunk_aux n fuel ((a :: l).drop n)

/-- Split a list into consecutive chunks of `n` elements (the numpy
reshapes to `(len / n, n)` used by the source enumerate exactly these
chunks once the length is known to be a multiple of `n`). -/
def chunkList (n : Nat) (l : List α) : List (List α) :=
  if n = 0 then [] else chunk_aux n l.length l

/-- The bits of one byte, least-significant bit first; mirrors the
generator expression `((byte >> i) & 1 for i in range(8))` in `_pack_bits`. -/
def byteBits (byte : Nat) : List Nat :=
  (List.range 8).map fun i => (byte >>> i) &&& 1

/-- `_bits_to_int(bits)`: fold the bits most-significant first. -/
def bits_to_int (bits : List Nat) : Nat :=
  bits.foldl (fun result bit => (result <<< 1) ||| bit) 0

/-- One row of `np.unpackbits` (most-significant bit of the byte first),
as used on the header flags and on the per-sample ploidy bytes. -/
def unpackbitsRow (byte : Nat) : List Nat :=
  (List.range 8).map fun i => (byte >>> (7 - i)) &&& 1

/-- The `b` low bits of `v`, least-significant first. -/
def lsb_bits (b v : Nat) : List Nat :=
  (List.range b).map fun i => (v >>> i) &&& 1

/-- Value of a most-significant-first bit list (arithmetic form of
`_bits_to_int`). -/
def msb_val (l : List Nat) : Nat :=
  l.foldl (fun r bit => 2 * r + bit) 0

/-- Value of a least-significant-first bit list. -/
def lsb_val (l : List Nat) : Nat :=
  l.foldr (fun bit acc => bit + 2 * acc) 0

/-- Little-endian value of a list of bytes (how `np.frombuffer` reads one
`u2`/`u4` word from consecutive bytes). -/
def le_val (g : List Nat) : Nat :=
  g.foldr (fun byte acc => byte + 256 * acc) 0

/-- `np.frombuffer(data, dtype = uintN)` with `width` bytes per element:
errors (`none`) unless the buffer length is a multiple of the element
size, and otherwise reads packed little-endian words. -/
def fromBufferLE (width : Nat) (data : List Nat) : Option (List Nat) :=
  if width ≠ 0 ∧ data.length % width = 0 then
    some ((chunkList width data).map le_val)
  else none

/-! ### The bit unpacker `_pack_bits` -/

/-- The final loop of `_pack_bits`: starting from the most significant
packed byte of each row, repeatedly left shift by 8 in `np.uint`
(64-bit, wrapping) and or in the next byte.  `np_fold []` is the
(unreachable) `probs = None` case. -/
def np_fold : List Nat → Nat
  | [] => 0
  | p :: rest => rest.foldl (fun final byte => ((final <<< 8) % 2 ^ 64) ||| byte) p

/-- `int(ceil(b / 8)) * 8`: the padded row width in bits. -/
def nbBitsFull (b : Nat) : Nat := (b + 7) / 8 * 8

/-- One reshaped row of `_pack_bits`: the row holds the `b` bits of one
value in stream order (least significant first).  The source reverses the
row, left-pads it with zero bits to whole bytes, packs the bits into bytes
with `np.packbits` (most significant bit of each byte first) and folds the
bytes big-endian. -/
def packRow (b : Nat) (row : List Nat) : Nat :=
  let full_bytes := List.replicate (nbBitsFull b - b) 0 ++ row.reverse
  np_fold ((chunkList 8 full_bytes).map bits_to_int)

/-- `_pack_bits(data, b)`: expand every byte into its bits (least
significant first), reshape to rows of `b` bits and decode each row.  The
numpy reshape raises `ValueError` unless `8 * len(data)` is a multiple of
`b` (and `b = 0` raises `ZeroDivisionError`); both are modelled as `none`. -/
def pack_bits (data : List Nat) (b : Nat) : Option (List Nat) :=
  let bits := data.flatMap byteBits
  if b = 0 then none
  else if bits.length % b = 0 then
    some ((chunkList b bits).map (packRow b))
  else none

/-! ### Spec-side reference for the bit unpacker -/

/-- Pack a bit stream into bytes, least significant bit of each byte
first. -/
def bytes_of_bits (bits : List Nat) : List Nat :=
  (chunkList 8 bits).map lsb_val

/-- The spec's little-endian-bitwise packed byte stream holding the values
`vs` of width `b`: byte 0's least significant bit is the first bit of
value 0, values straddle byte boundaries, and the trailing partial byte
(when the total bit count is not a multiple of 8) is zero padded.  This
definition follows the spec's words, not the source; it is the reference
the unpacker `_pack_bits` is compared against. -/
def spec_pack_le (b : Nat) (vs : List Nat) : List Nat :=
  let bits := vs.flatMap (lsb_bits b)
  bytes_of_bits (bits ++ List.replicate ((8 - bits.length % 8) % 8) 0)

/-! ### Decompressor dispatch and header flags -/

/-- The three decompression callables the header parser can assign to
`self._decompress`. -/
inductive Codec
  | no_decompress
  | zlib_decompress
  | zstd_decompress
  deriving DecidableEq, Repr

/-- `PyBGEN._no_decompress`. -/
def no_decompress (data : List Nat) : List Nat := data

/-- Run an assigned decompression callable.  `_no_decompress` is the
identity, as in the source; zlib and zstd are opaque byte-stream functions
supplied as parameters. -/
def run_codec (zlibFn zstdFn : List Nat → List Nat) :
    Codec → List Nat → List Nat
  | .no_decompress => no_decompress
  | .zlib_decompress => zlibFn
  | .zstd_decompress => zstdFn

/-- The header state assigned by `_parse_header_block` from the flags. -/
structure HeaderFlags where
  is_compressed : Bool
  /-- `none` models `self._decompress` never having been assigned -/
  codec : Option Codec
  layout : Nat
  has_sample : Bool
  deriving DecidableEq, Repr

/-- The four bytes of a little-endian `u32`, in file order. -/
def leBytes4 (w : Nat) : List Nat :=
  [w % 256, w / 256 % 256, w / 65536 % 256, w / 16777216 % 256]

/-- `_bits_to_int(flag[0, -2:])`: the compression field of the flags. -/
def flag_compression (flagBytes : List Nat) : Nat :=
  bits_to_int (((flagBytes.map unpackbitsRow).headD []).drop 6)

/-- `_bits_to_int(flag[0, -6:-2])`: the layout field of the flags. -/
def flag_layout (flagBytes : List Nat) : Nat :=
  bits_to_int ((((flagBytes.map unpackbitsRow).headD []).drop 2).take 4)

/-- `flag[-1, 0] == 1`: the sample-identifiers-present bit. -/
def flag_has_sample (flagBytes : List Nat) : Bool :=
  ((flagBytes.map unpackbitsRow).getLastD []).headD 0 == 1

/-- The flag-processing tail of `_parse_header_block` (lines 589-629):
compression dispatch, then layout dispatch, then the sample bit.
`hasZstd` states whether the optional zstd module imported. -/
def parse_header_flag (hasZstd : Bool) (flagBytes : List Nat) :
    Except PyErr HeaderFlags := do
  let compression := flag_compression flagBytes
  let state ←
    if compression = 0 then pure (false, some Codec.no_decompress)
    else if compression = 1 then pure (true, some Codec.zlib_decompress)
    else if compression = 2 then
      if hasZstd then pure (true, some Codec.zstd_decompress)
      else throw (PyErr.valueError ErrMsg.zstdNotInstalled)
    else pure (false, (none : Option Codec))
  let layout := flag_layout flagBytes
  let lay ←
    if layout = 0 then throw (PyErr.valueError ErrMsg.invalidBgenFile)
    else if layout = 1 then pure 1
    else if layout = 2 then pure 2
    else throw (PyErr.valueError ErrMsg.invalidLayoutType)
  pure { is_compressed := state.1, codec := state.2, layout := lay,
         has_sample := flag_has_sample flagBytes }

/-! ### The variant block codec -/

/-- `unpack("<I", s[:4])` plus the rest of the stream; `struct.error`
(`none`) when fewer than 4 bytes remain. -/
def readU32 (s : List Nat) : Option (Nat × List Nat) :=
  match s with
  | b0 :: b1 :: b2 :: b3 :: rest =>
    some (b0 + 256 * b1 + 65536 * b2 + 16777216 * b3, rest)
  | _ => none

/-- `PyBGEN._get_curr_variant_probs_layout_1` (lines 371-384).  `c` is
`self._nb_samples` when the file is not compressed, otherwise a `u32` read
from the stream; `c` bytes are then read (a short read near EOF silently
yields fewer), decompressed, reinterpreted as little-endian `u16` values
divided by 32768 and reshaped to `(nb_samples, 3)`. -/
def get_curr_variant_probs_layout_1 (zlibFn zstdFn : List Nat → List Nat)
    (nb_samples : Nat) (cfg : HeaderFlags) (stream : List Nat) :
    Except PyErr (List (ℚ × ℚ × ℚ)) := do
  let cr ←
    if cfg.is_compressed then
      match readU32 stream with
      | none => throw PyErr.structError
      | some p => pure p
    else pure (nb_samples, stream)
  let decomp ←
    match cfg.codec with
    | none => throw PyErr.attributeError
    | some k => pure (run_codec zlibFn zstdFn k)
  let data := decomp (cr.2.take cr.1)
  let u16s ←
    match fromBufferLE 2 data with
    | none => throw (PyErr.valueError ErrMsg.bufferSize)
    | some u => pure u
  if u16s.length = 3 * nb_samples then
    pure ((chunkList 3 u16s).map fun g =>
      ((g.getD 0 0 : ℚ) / 32768, (g.getD 1 0 : ℚ) / 32768,
        (g.getD 2 0 : ℚ) / 32768))
  else throw (PyErr.valueError ErrMsg.cannotReshape)

/-- Missing flag of one ploidy byte: `np.unpackbits(...)[:, 0] == 1`, the
byte's most significant bit. -/
def missing_bit (byte : Nat) : Bool := (unpackbitsRow byte).headD 0 == 1

/-- The body of `PyBGEN._get_curr_variant_probs_layout_2` (lines 409-479)
on the decompressed probability buffer: sample count, allele count, ploidy
bounds, per-sample missingness bits, phased byte, bit width, and the
packed probability pairs scaled by `2^b - 1`. -/
def decode_layout_2_buffer (nb_samples : Nat) (buf : List Nat) :
    Except PyErr (List (ℚ × ℚ) × List Bool) := do
  let nd ←
    match readU32 buf with
    | none => throw PyErr.structError
    | some p => pure p
  if nd.1 ≠ nb_samples then throw (PyErr.valueError ErrMsg.invalidBgenFile)
  let ad ←
    match nd.2 with
    | b0 :: b1 :: rest => pure (b0 + 256 * b1, rest)
    | _ => throw PyErr.structError
  if ad.1 ≠ 2 then throw (PyErr.valueError ErrMsg.onlyTwoAlleles)
  let pd ←
    match ad.2 with
    | b0 :: b1 :: rest => pure (b0, b1, rest)
    | _ => throw PyErr.indexError
  if pd.1 ≠ 2 ∧ pd.2.1 ≠ 2 then throw (PyErr.valueError ErrMsg.onlyPloidy2)
  let missing_data := (pd.2.2.take nd.1).map missing_bit
  let rest1 := pd.2.2.drop nd.1
  let ph ←
    match rest1 with
    | b0 :: rest => pure (b0 == 1, rest)
    | _ => throw PyErr.indexError
  if ph.1 then throw (PyErr.valueError ErrMsg.onlyUnphased)
  let bw ←
    match ph.2 with
    | b0 :: rest => pure (b0, rest)
    | _ => throw PyErr.indexError
  let probsN ←
    match (if bw.1 = 8 then fromBufferLE 1 bw.2
           else if bw.1 = 16 then fromBufferLE 2 bw.2
           else if bw.1 = 32 then fromBufferLE 4 bw.2
           else pack_bits bw.2 bw.1) with
    | none => throw (PyErr.valueError ErrMsg.bufferSize)
    | some u => pure u
  if probsN.length = 2 * nb_samples then
    pure (((chunkList 2 probsN).map fun g =>
      ((g.getD 0 0 : ℚ) / (2 ^ bw.1 - 1), (g.getD 1 0 : ℚ) / (2 ^ bw.1 - 1))),
      missing_data)
  else throw (PyErr.valueError ErrMsg.cannotReshape)

/-! ### Dosage computation and missing samples -/

/-- `PyBGEN._get_layout_2_last_probs`: `1 - np.sum(probs, axis=1)`. -/
def get_layout_2_last_probs (probs : List (ℚ × ℚ)) : List ℚ :=
  probs.map fun p => 1 - (p.1 + p.2)

/-- `PyBGEN._layout_2_probs_to_dosage` (lines 537-553): dosage
`2 * last + P_het`, and when `prob_t > 0` the samples none of whose three
probabilities reaches the threshold become NaN (`none`). -/
def layout_2_probs_to_dosage (prob_t : ℚ) (probs : List (ℚ × ℚ)) :
    List (Option ℚ) :=
  let last_probs := get_layout_2_last_probs probs
  let dosage := List.zipWith (fun p lastp => 2 * lastp + p.2) probs last_probs
  if 0 < prob_t then
    List.zipWith
      (fun d pl =>
        if prob_t ≤ pl.1.1 ∨ prob_t ≤ pl.1.2 ∨ prob_t ≤ pl.2 then some d
        else none)
      dosage (probs.zip last_probs)
  else dosage.map some

/-- `PyBGEN._layout_1_probs_to_dosage` (lines 523-530). -/
def layout_1_probs_to_dosage (prob_t : ℚ) (probs : List (ℚ × ℚ × ℚ)) :
    List (Option ℚ) :=
  let dosage := probs.map fun p => 2 * p.2.2 + p.2.1
  if 0 < prob_t then
    List.zipWith
      (fun d p =>
        if prob_t ≤ p.1 ∨ prob_t ≤ p.2.1 ∨ prob_t ≤ p.2.2 then some d
        else none)
      dosage probs
  else dosage.map some

/-- `dosage[missing_data] = np.nan`. -/
def apply_missing (missing : List Bool) (vals : List (Option ℚ)) :
    List (Option ℚ) :=
  List.zipWith (fun m v => if m then none else v) missing vals

/-- The probabilities branch of `_get_curr_variant_data` for layout 2
(lines 499-511): stack (P_homref, P_het) with the computed P_homalt and
blank the missing rows. -/
def layout_2_full_probs (probs : List (ℚ × ℚ)) (missing : List Bool) :
    List (Option (ℚ × ℚ × ℚ)) :=
  let last_probs := get_layout_2_last_probs probs
  let full := List.zipWith (fun p lastp => (p.1, p.2, lastp)) probs last_probs
  List.zipWith (fun m v => if m then none else some v) missing full

/-- The dosage branch of `_get_curr_variant_data` for layout 2 (lines
513-521): compute dosages then blank the missing samples. -/
def layout_2_variant_dosage (prob_t : ℚ) (probs : List (ℚ × ℚ))
    (missing : List Bool) : List (Option ℚ) :=
  apply_missing missing (layout_2_probs_to_dosage prob_t probs)

/-! ### Reader facade -/

/-- Reader state recorded by `PyBGEN.__init__` in read mode that matters
for decoding: the stored probability threshold and the return-mode flag. -/
structure ReaderState where
  prob_t : ℚ
  return_probs : Bool
  deriving DecidableEq, Repr

/-- The mode dispatch of `PyBGEN.__init__` (lines 103-138).  In read mode
the threshold is stored without any check.  In write mode the source
executes `raise NotImplemented(...)`; `NotImplemented` is not callable, so
the attempted call raises `TypeError` before anything is raised
deliberately.  Any other mode raises `ValueError("invalid mode: ...")`. -/
def pybgen_init (mode : String) (prob_t : ℚ) (probs_only : Bool) :
    Except PyErr ReaderState :=
  if mode = ("r") then
    Except.ok { prob_t := prob_t, return_probs := probs_only }
  else if mode = ("w") then Except.error PyErr.typeError
  else Except.error (PyErr.valueError ErrMsg.invalidMode)

/-- One row of the sidecar index `Variant` table (the columns
`get_variant` uses). -/
structure IndexRow where
  rsid : String
  file_start_position : Nat

/-- `PyBGEN.get_variant(name)` (lines 292-324) over an abstract decoded
record type: select the seek positions of all index rows whose rsid
equals the name, decode the record at each position in index order, and
raise when there are none.  `read_at` stands for the combination of
`seek` and `_read_current_variant`. -/
def get_variant (idx : List IndexRow) (read_at : Nat → R) (name : String) :
    Except PyErr (List R) :=
  let seek_positions :=
    (idx.filter fun row => row.rsid == name).map
      fun row => row.file_start_position
  let results := seek_positions.map read_at
  if results.isEmpty then Except.error (PyErr.valueError ErrMsg.nameNotFound)
  else Except.ok results

/-- One variant block of a BGEN file: its index-reported start offset, its
total size in bytes (identity fields plus probability payload) and the
decoded record. -/
structure VBlock (R : Type) where
  start : Nat
  size : Nat
  payload : R

/-- The sequential iteration loop (lines 213-243): `next()` raises
`StopIteration` once the cursor has passed the index-reported last variant
offset, and otherwise reads the block under the cursor, leaving the cursor
immediately after it. -/
def seq_read (last : Nat) : Nat → List (VBlock R) → List R
  | _, [] => []
  | pos, blk :: rest =>
    if last < pos then []
    else blk.payload :: seq_read last (blk.start + blk.size) rest

/-- The file cursor walks the blocks contiguously from `pos`: every block
starts exactly where the previous one ended. -/
def chain_from : Nat → List (VBlock R) → Prop
  | _, [] => True
  | pos, blk :: rest => blk.start = pos ∧ chain_from (blk.start + blk.size) rest

/-! ### Basic lemmas about the utilities -/

theorem chunk_aux_congr {n : Nat} (hn : 0 < n) :
    ∀ f1 f2 (l : List α), l.length ≤ f1 → l.length ≤ f2 →
      chunk_aux n f1 l = chunk_aux n f2 l := by
  intro f1
  induction f1 with
  | zero =>
    intro f2 l h1 _
    have : l = [] := List.length_eq_zero.mp (Nat.le_zero.mp h1)
    subst this
    cases f2 <;> rfl
  | succ f ih =>
    intro f2 l h1 h2
    cases l with
    | nil => cases f2 <;> rfl
    | cons a l =>
      cases f2 with
      | zero => simp at h2
      | succ f2 =>
        simp only [chunk_aux]
        congr 1
        have hd : ((a :: l).drop n).length = l.length + 1 - n := by simp
        simp only [List.length_cons] at h1 h2
        apply ih
        · rw [hd]; omega
        · rw [hd]; omega

theorem chunkList_nil (n : Nat) : chunkList n ([] : List α) = [] := by
  simp [chunkList, chunk_aux]

theorem chunkList_append {n : Nat} (hn : 0 < n) (l1 l2 : List α)
    (h : l1.length = n) :
    chunkList n (l1 ++ l2) = l1 :: chunkList n l2 := by
  obtain ⟨a, t, rfl⟩ : ∃ a t, l1 = a :: t := by
    cases l1 with
    | nil => simp at h; omega
    | cons a t => exact ⟨a, t, rfl⟩
  unfold chunkList
  rw [if_neg (by omega), if_neg (by omega)]
  rw [List.cons_append]
  have hlen : (a :: (t ++ l2)).length = (t ++ l2).length + 1 := by simp
  rw [hlen]
  simp only [chunk_aux]
  rw [← List.cons_append, List.take_left' h, List.drop_left' h]
  congr 1
  exact chunk_aux_congr hn _ _ l2 (by simp only [List.length_append]; omega)
    (Nat.le_refl _)

theorem chunkList_append_mul {n : Nat} (hn : 0 < n) :
    ∀ (m : Nat) (l1 l2 : List α), l1.length = n * m →
      chunkList n (l1 ++ l2) = chunkList n l1 ++ chunkList n l2 := by
  intro m
  induction m with
  | zero =>
    intro l1 l2 h
    have : l1 = [] := List.length_eq_zero.mp (by omega)
    subst this
    simp [chunkList_nil]
  | succ m ih =>
    intro l1 l2 h
    have hmul : n * (m + 1) = n * m + n := by ring
    have hlen : n ≤ l1.length := by omega
    have h1 : (l1.take n).length = n := by
      rw [List.length_take]; omega
    have h2 : (l1.drop n).length = n * m := by
      rw [List.length_drop, h]; omega
    calc chunkList n (l1 ++ l2)
        = chunkList n (l1.take n ++ (l1.drop n ++ l2)) := by
          rw [← List.append_assoc, List.take_append_drop]
      _ = l1.take n :: chunkList n (l1.drop n ++ l2) := chunkList_append hn _ _ h1
      _ = l1.take n :: (chunkList n (l1.drop n) ++ chunkList n l2) := by
          rw [ih _ _ h2]
      _ = chunkList n l1 ++ chunkList n l2 := by
          rw [← List.cons_append]
          congr 1
          conv_rhs => rw [← List.take_append_drop n l1]
          rw [chunkList_append hn _ _ h1]

theorem chunkList_singleton {n : Nat} (hn : 0 < n) (l : List α)
    (h : l.length = n) : chunkList n l = [l] := by
  have := chunkList_append hn l [] h
  simpa [chunkList_nil] using this

theorem chunkList_ne_nil {n : Nat} (hn : 0 < n) (l : List α) (hl : l ≠ []) :
    chunkList n l ≠ [] := by
  obtain ⟨a, t, rfl⟩ := List.exists_cons_of_ne_nil hl
  simp only [chunkList, if_neg (by omega : ¬n = 0), List.length_cons, chunk_aux]
  exact List.cons_ne_nil _ _

theorem msb_foldl_acc (l : List Nat) : ∀ a : Nat,
    l.foldl (fun r bit => 2 * r + bit) a = a * 2 ^ l.length + msb_val l := by
  induction l with
  | nil => intro a; simp [msb_val]
  | cons x l ih =>
    intro a
    have hx : msb_val (x :: l) = x * 2 ^ l.length + msb_val l := by
      show (x :: l).foldl (fun r bit => 2 * r + bit) 0 = _
      rw [List.foldl_cons]
      simpa using ih x
    simp only [List.foldl_cons, List.length_cons, hx]
    rw [ih (2 * a + x)]
    ring

theorem msb_val_cons (x : Nat) (l : List Nat) :
    msb_val (x :: l) = x * 2 ^ l.length + msb_val l := by
  show (x :: l).foldl (fun r bit => 2 * r + bit) 0 = _
  rw [List.foldl_cons]
  simpa using msb_foldl_acc l x

theorem msb_val_append (l1 l2 : List Nat) :
    msb_val (l1 ++ l2) = msb_val l1 * 2 ^ l2.length + msb_val l2 := by
  show (l1 ++ l2).foldl _ 0 = _
  rw [List.foldl_append]
  exact msb_foldl_acc l2 _

theorem msb_val_lt (l : List Nat) (h : ∀ x ∈ l, x ≤ 1) :
    msb_val l < 2 ^ l.length := by
  induction l with
  | nil => simp [msb_val]
  | cons x t ih =>
    rw [msb_val_cons]
    have hx : x ≤ 1 := h x (List.mem_cons_self _ _)
    have ht := ih (fun y hy => h y (List.mem_cons_of_mem _ hy))
    have : x * 2 ^ t.length ≤ 2 ^ t.length := by
      calc x * 2 ^ t.length ≤ 1 * 2 ^ t.length :=
            Nat.mul_le_mul_right _ hx
        _ = 2 ^ t.length := Nat.one_mul _
    calc x * 2 ^ t.length + msb_val t < x * 2 ^ t.length + 2 ^ t.length := by omega
      _ ≤ 2 ^ t.length + 2 ^ t.length := by omega
      _ = 2 ^ (x :: t).length := by rw [List.length_cons, pow_succ]; ring

theorem msb_val_replicate_zero (k : Nat) : msb_val (List.replicate k 0) = 0 := by
  induction k with
  | zero => simp [msb_val]
  | succ k ih => rw [List.replicate_succ, msb_val_cons, ih]; ring

theorem msb_val_replicate_zero_append (k : Nat) (l : List Nat) :
    msb_val (List.replicate k 0 ++ l) = msb_val l := by
  rw [msb_val_append, msb_val_replicate_zero]; ring

theorem shiftLeft_one_or (r bit : Nat) (h : bit < 2) :
    (r <<< 1) ||| bit = 2 * r + bit := by
  have key := (Nat.mul_add_lt_is_or (i := 1) (by omega : bit < 2 ^ 1) r).symm
  calc (r <<< 1) ||| bit = 2 ^ 1 * r ||| bit := by
        rw [Nat.shiftLeft_eq, Nat.mul_comm, pow_one]
    _ = 2 ^ 1 * r + bit := key
    _ = 2 * r + bit := by rw [pow_one]

theorem bits_to_int_eq_msb_val (l : List Nat) (h : ∀ x ∈ l, x ≤ 1) :
    bits_to_int l = msb_val l := by
  unfold bits_to_int msb_val
  apply List.foldl_ext
  intro a x hx
  exact shiftLeft_one_or a x (by have := h x hx; omega)

theorem and_one_le (y : Nat) : (y &&& 1) ≤ 1 := Nat.and_le_right

theorem byteBits_length (byte : Nat) : (byteBits byte).length = 8 := by
  simp [byteBits]

theorem byteBits_le_one (byte : Nat) : ∀ x ∈ byteBits byte, x ≤ 1 := by
  intro x hx
  simp only [byteBits, List.mem_map] at hx
  obtain ⟨i, _, rfl⟩ := hx
  exact and_one_le _

theorem lsb_bits_length (b v : Nat) : (lsb_bits b v).length = b := by
  simp [lsb_bits]

theorem lsb_bits_le_one (b v : Nat) : ∀ x ∈ lsb_bits b v, x ≤ 1 := by
  intro x hx
  simp only [lsb_bits, List.mem_map] at hx
  obtain ⟨i, _, rfl⟩ := hx
  exact and_one_le _

theorem lsb_bits_succ (b v : Nat) :
    lsb_bits (b + 1) v = lsb_bits b v ++ [(v >>> b) &&& 1] := by
  simp [lsb_bits, List.range_succ]

theorem msb_val_reverse_lsb (b v : Nat) :
    msb_val (lsb_bits b v).reverse = v % 2 ^ b := by
  induction b with
  | zero => simp [lsb_bits, msb_val, Nat.mod_one]
  | succ b ih =>
    rw [lsb_bits_succ, List.reverse_append, List.reverse_singleton,
      List.singleton_append, msb_val_cons, List.length_reverse, lsb_bits_length,
      ih, Nat.shiftRight_eq_div_pow, Nat.and_one_is_mod, Nat.mod_pow_succ]
    ring

theorem np_fold_append (bytes : List Nat) (x : Nat) (hb : bytes ≠ []) :
    np_fold (bytes ++ [x]) = ((np_fold bytes <<< 8) % 2 ^ 64) ||| x := by
  obtain ⟨p, rest, rfl⟩ := List.exists_cons_of_ne_nil hb
  simp only [np_fold, List.cons_append, List.foldl_append, List.foldl_cons,
    List.foldl_nil]

theorem length_bind_const {f : β → List α} {n : Nat}
    (hf : ∀ x, (f x).length = n) :
    ∀ vs : List β, (vs.flatMap f).length = vs.length * n := by
  intro vs
  induction vs with
  | nil => simp
  | cons v t ih =>
    rw [List.flatMap_cons, List.length_append, ih, hf, List.length_cons]
    ring

theorem chunkList_bind {n : Nat} (hn : 0 < n) (f : β → List α)
    (hf : ∀ x, (f x).length = n) :
    ∀ vs : List β, chunkList n (vs.flatMap f) = vs.map f := by
  intro vs
  induction vs with
  | nil => simp [chunkList_nil]
  | cons v t ih =>
    rw [List.flatMap_cons, chunkList_append hn _ _ (hf v), ih, List.map_cons]

theorem np_fold_chunks :
    ∀ (m : Nat) (l : List Nat), l.length = 8 * m → m ≤ 8 →
      (∀ x ∈ l, x ≤ 1) →
      np_fold ((chunkList 8 l).map bits_to_int) = msb_val l := by
  intro m
  induction m with
  | zero =>
    intro l hlen _ _
    have : l = [] := List.length_eq_zero.mp (by omega)
    subst this
    simp [chunkList_nil, np_fold, msb_val]
  | succ m ih =>
    intro l hlen hm hbits
    have hlenl1 : (l.take (8 * m)).length = 8 * m := by
      rw [List.length_take]; omega
    have hlenc : (l.drop (8 * m)).length = 8 := by
      rw [List.length_drop]; omega
    set l1 := l.take (8 * m) with hl1
    set c := l.drop (8 * m) with hc
    have hsplit : l = l1 ++ c := (List.take_append_drop _ l).symm
    have hb1 : ∀ x ∈ l1, x ≤ 1 := fun x hx => hbits x (by
      rw [hsplit]; exact List.mem_append_left _ hx)
    have hbc : ∀ x ∈ c, x ≤ 1 := fun x hx => hbits x (by
      rw [hsplit]; exact List.mem_append_right _ hx)
    have hchunks : chunkList 8 l = chunkList 8 l1 ++ [c] := by
      rw [hsplit, chunkList_append_mul (by omega) m l1 c hlenl1,
        chunkList_singleton (by omega) c hlenc]
    have hcval : bits_to_int c = msb_val c := bits_to_int_eq_msb_val c hbc
    cases Nat.eq_zero_or_pos m with
    | inl hm0 =>
      subst hm0
      have : l1 = [] := List.length_eq_zero.mp (by omega)
      rw [hchunks, this, chunkList_nil, List.nil_append, List.map_cons,
        List.map_nil, hsplit, this, List.nil_append]
      simpa [np_fold] using hcval
    | inr hmpos =>
      have hl1ne : l1 ≠ [] := by
        intro hnil
        rw [hnil] at hlenl1
        simp at hlenl1
        omega
      have hden : chunkList 8 l1 ≠ [] := chunkList_ne_nil (by omega) l1 hl1ne
      have hmapne : (chunkList 8 l1).map bits_to_int ≠ [] := by
        simpa using hden
      have hih := ih l1 hlenl1 (by omega) hb1
      have hlt : msb_val l1 < 2 ^ 56 := by
        have := msb_val_lt l1 hb1
        calc msb_val l1 < 2 ^ l1.length := this
          _ ≤ 2 ^ 56 := Nat.pow_le_pow_right (by omega) (by omega)
      have hclt : msb_val c < 2 ^ 8 := by
        have := msb_val_lt c hbc
        rwa [hlenc] at this
      rw [hchunks, List.map_append, List.map_singleton,
        np_fold_append _ _ hmapne, hih, hcval]
      have hshift : msb_val l1 <<< 8 = 2 ^ 8 * msb_val l1 := by
        rw [Nat.shiftLeft_eq, Nat.mul_comm]
      have hmod : (msb_val l1 <<< 8) % 2 ^ 64 = 2 ^ 8 * msb_val l1 := by
        rw [hshift]
        apply Nat.mod_eq_of_lt
        calc 2 ^ 8 * msb_val l1 < 2 ^ 8 * 2 ^ 56 :=
              (Nat.mul_lt_mul_left (by norm_num)).mpr hlt
          _ = 2 ^ 64 := by norm_num
      rw [hmod, ← Nat.mul_add_lt_is_or hclt, hsplit, msb_val_append, hlenc]
      ring

theorem packRow_lsb_bits (b v : Nat) (hb1 : 1 ≤ b) (hb2 : b ≤ 32)
    (hv : v < 2 ^ b) : packRow b (lsb_bits b v) = v := by
  have hble : b ≤ nbBitsFull b := by unfold nbBitsFull; omega
  have hfull :
      (List.replicate (nbBitsFull b - b) 0 ++ (lsb_bits b v).reverse).length
        = 8 * ((b + 7) / 8) := by
    simp only [List.length_append, List.length_replicate, List.length_reverse,
      lsb_bits_length]
    unfold nbBitsFull
    omega
  have hbits : ∀ x ∈ List.replicate (nbBitsFull b - b) 0 ++
      (lsb_bits b v).reverse, x ≤ 1 := by
    intro x hx
    rcases List.mem_append.mp hx with hx | hx
    · have := List.eq_of_mem_replicate hx; omega
    · exact lsb_bits_le_one b v x (List.mem_reverse.mp hx)
  unfold packRow
  rw [np_fold_chunks ((b + 7) / 8) _ hfull (by omega) hbits,
    msb_val_replicate_zero_append, msb_val_reverse_lsb,
    Nat.mod_eq_of_lt hv]

theorem range_eight : List.range 8 = [0, 1, 2, 3, 4, 5, 6, 7] := by decide

theorem byteBits_lsb_val (g : List Nat) (hlen : g.length = 8)
    (hg : ∀ x ∈ g, x ≤ 1) : byteBits (lsb_val g) = g := by
  rcases g with _ | ⟨x0, g⟩
  · simp at hlen
  rcases g with _ | ⟨x1, g⟩
  · simp at hlen
  rcases g with _ | ⟨x2, g⟩
  · simp at hlen
  rcases g with _ | ⟨x3, g⟩
  · simp at hlen
  rcases g with _ | ⟨x4, g⟩
  · simp at hlen
  rcases g with _ | ⟨x5, g⟩
  · simp at hlen
  rcases g with _ | ⟨x6, g⟩
  · simp at hlen
  rcases g with _ | ⟨x7, g⟩
  · simp at hlen
  rcases g with _ | ⟨x8, g⟩
  on_goal 2 => simp at hlen
  have h0 : x0 ≤ 1 := hg x0 (by simp)
  have h1 : x1 ≤ 1 := hg x1 (by simp)
  have h2 : x2 ≤ 1 := hg x2 (by simp)
  have h3 : x3 ≤ 1 := hg x3 (by simp)
  have h4 : x4 ≤ 1 := hg x4 (by simp)
  have h5 : x5 ≤ 1 := hg x5 (by simp)
  have h6 : x6 ≤ 1 := hg x6 (by simp)
  have h7 : x7 ≤ 1 := hg x7 (by simp)
  simp only [lsb_val, List.foldr_cons, List.foldr_nil, byteBits, range_eight,
    List.map_cons, List.map_nil, Nat.shiftRight_eq_div_pow, Nat.and_one_is_mod,
    List.cons.injEq, and_true]
  norm_num
  omega

theorem lsb_val_byteBits (byte : Nat) (h : byte < 256) :
    lsb_val (byteBits byte) = byte := by
  simp only [byteBits, range_eight, List.map_cons, List.map_nil, lsb_val,
    List.foldr_cons, List.foldr_nil, Nat.shiftRight_eq_div_pow,
    Nat.and_one_is_mod]
  norm_num
  omega

theorem bytes_of_bits_roundtrip :
    ∀ (m : Nat) (bits : List Nat), bits.length = 8 * m →
      (∀ x ∈ bits, x ≤ 1) →
      (bytes_of_bits bits).flatMap byteBits = bits := by
  intro m
  induction m with
  | zero =>
    intro bits h _
    have : bits = [] := List.length_eq_zero.mp (by omega)
    subst this
    simp [bytes_of_bits, chunkList_nil]
  | succ m ih =>
    intro bits h hb
    have hc : (bits.take 8).length = 8 := by
      rw [List.length_take]; omega
    have hrest : (bits.drop 8).length = 8 * m := by
      rw [List.length_drop]; omega
    have hsplit : bits = bits.take 8 ++ bits.drop 8 :=
      (List.take_append_drop _ _).symm
    rw [hsplit, bytes_of_bits,
      chunkList_append (by omega) _ _ hc, List.map_cons,
      List.flatMap_cons]
    have hcb : ∀ x ∈ bits.take 8, x ≤ 1 := fun x hx =>
      hb x (List.take_subset _ _ hx)
    have hrb : ∀ x ∈ bits.drop 8, x ≤ 1 := fun x hx =>
      hb x (List.drop_subset _ _ hx)
    rw [byteBits_lsb_val _ hc hcb]
    congr 1
    exact ih _ hrest hrb

theorem bytes_of_bits_flatMap (s : List Nat) (hs : ∀ x ∈ s, x < 256) :
    bytes_of_bits (s.flatMap byteBits) = s := by
  unfold bytes_of_bits
  rw [chunkList_bind (by omega) byteBits byteBits_length s, List.map_map]
  have : ∀ x ∈ s, (lsb_val ∘ byteBits) x = x := fun x hx =>
    lsb_val_byteBits x (hs x hx)
  rw [List.map_congr_left this]
  simp

theorem chunkList_length {n : Nat} (hn : 0 < n) :
    ∀ (m : Nat) (l : List α), l.length = n * m →
      (chunkList n l).length = m := by
  intro m
  induction m with
  | zero =>
    intro l h
    have : l = [] := List.length_eq_zero.mp (by omega)
    subst this
    simp [chunkList_nil]
  | succ m ih =>
    intro l h
    have hmul : n * (m + 1) = n * m + n := by ring
    have h1 : (l.take n).length = n := by
      rw [List.length_take]; omega
    have h2 : (l.drop n).length = n * m := by
      rw [List.length_drop, h]; omega
    conv_lhs => rw [← List.take_append_drop n l]
    rw [chunkList_append hn _ _ h1, List.length_cons, ih _ h2]

theorem chunkList_mem {n : Nat} (hn : 0 < n) :
    ∀ (m : Nat) (l g : List α), l.length = n * m → g ∈ chunkList n l →
      g.length = n ∧ ∀ x ∈ g, x ∈ l := by
  intro m
  induction m with
  | zero =>
    intro l g h hg
    have : l = [] := List.length_eq_zero.mp (by omega)
    subst this
    rw [chunkList_nil] at hg
    simp at hg
  | succ m ih =>
    intro l g h hg
    have hmul : n * (m + 1) = n * m + n := by ring
    have h1 : (l.take n).length = n := by
      rw [List.length_take]; omega
    have h2 : (l.drop n).length = n * m := by
      rw [List.length_drop, h]; omega
    rw [← List.take_append_drop n l, chunkList_append hn _ _ h1] at hg
    rcases List.mem_cons.mp hg with rfl | hg
    · exact ⟨h1, fun x hx => List.take_subset _ _ hx⟩
    · obtain ⟨hl, hsub⟩ := ih _ _ h2 hg
      exact ⟨hl, fun x hx => List.drop_subset _ _ (hsub x hx)⟩

theorem lsb_bits_add (m n v : Nat) :
    lsb_bits (m + n) v = lsb_bits m v ++ lsb_bits n (v >>> m) := by
  unfold lsb_bits
  rw [List.range_add, List.map_append, List.map_map]
  congr 1
  apply List.map_congr_left
  intro i _
  show (v >>> (m + i)) &&& 1 = ((v >>> m) >>> i) &&& 1
  rw [Nat.shiftRight_add]

theorem lsb_bits_eight_low (x r : Nat) (_hx : x < 256) :
    lsb_bits 8 (x + 256 * r) = byteBits x := by
  simp only [lsb_bits, byteBits, range_eight, List.map_cons, List.map_nil,
    Nat.shiftRight_eq_div_pow, Nat.and_one_is_mod, List.cons.injEq, and_true]
  norm_num
  omega

theorem le_val_lt : ∀ (g : List Nat), (∀ x ∈ g, x < 256) →
    le_val g < 256 ^ g.length := by
  intro g
  induction g with
  | nil => intro _; simp [le_val]
  | cons x g ih =>
    intro hg
    have hx : x < 256 := hg x (by simp)
    have hlv := ih fun y hy => hg y (List.mem_cons_of_mem _ hy)
    have hstep : le_val (x :: g) = x + 256 * le_val g := by
      simp [le_val]
    rw [hstep, List.length_cons, pow_succ]
    omega

theorem lsb_bits_le_val : ∀ (g : List Nat), (∀ x ∈ g, x < 256) →
    lsb_bits (8 * g.length) (le_val g) = g.flatMap byteBits := by
  intro g
  induction g with
  | nil => intro _; simp [lsb_bits]
  | cons x g ih =>
    intro hg
    have hx : x < 256 := hg x (by simp)
    have hstep : le_val (x :: g) = x + 256 * le_val g := by
      simp [le_val]
    have hlen : 8 * (x :: g).length = 8 + 8 * g.length := by
      rw [List.length_cons]; ring
    rw [hstep, hlen, lsb_bits_add, lsb_bits_eight_low x _ hx,
      List.flatMap_cons]
    congr 1
    have hshift : (x + 256 * le_val g) >>> 8 = le_val g := by
      rw [Nat.shiftRight_eq_div_pow]
      norm_num
      omega
    rw [hshift]
    exact ih fun y hy => hg y (List.mem_cons_of_mem _ hy)

theorem flatMap_le_val_chunks {k : Nat} (hk : 0 < k) :
    ∀ (m : Nat) (s : List Nat), s.length = k * m → (∀ x ∈ s, x < 256) →
      ((chunkList k s).map le_val).flatMap (lsb_bits (8 * k)) =
        s.flatMap byteBits := by
  intro m
  induction m with
  | zero =>
    intro s h _
    have : s = [] := List.length_eq_zero.mp (by omega)
    subst this
    simp [chunkList_nil]
  | succ m ih =>
    intro s h hs
    have hmul : k * (m + 1) = k * m + k := by ring
    have h1 : (s.take k).length = k := by
      rw [List.length_take]; omega
    have h2 : (s.drop k).length = k * m := by
      rw [List.length_drop, h]; omega
    have hcb : ∀ x ∈ s.take k, x < 256 := fun x hx =>
      hs x (List.take_subset _ _ hx)
    have hrb : ∀ x ∈ s.drop k, x < 256 := fun x hx =>
      hs x (List.drop_subset _ _ hx)
    conv_lhs => rw [← List.take_append_drop k s]
    rw [chunkList_append hk _ _ h1, List.map_cons, List.flatMap_cons]
    have hfirst := lsb_bits_le_val (s.take k) hcb
    rw [h1] at hfirst
    rw [hfirst, ih _ h2 hrb]
    conv_rhs => rw [← List.take_append_drop k s]
    rw [List.flatMap_append]

theorem pack_bits_spec_roundtrip (b : Nat) (hb1 : 1 ≤ b) (hb2 : b ≤ 32)
    (vs : List Nat) (hv : ∀ v ∈ vs, v < 2 ^ b)
    (hM : vs.length * b % 8 = 0) :
    pack_bits (spec_pack_le b vs) b = some vs := by
  have hlenbits : (vs.flatMap (lsb_bits b)).length = vs.length * b :=
    length_bind_const (lsb_bits_length b) vs
  have hble : ∀ x ∈ vs.flatMap (lsb_bits b), x ≤ 1 := by
    intro x hx
    obtain ⟨v, _, hxv⟩ := List.mem_flatMap.mp hx
    exact lsb_bits_le_one b v x hxv
  have hspec : spec_pack_le b vs = bytes_of_bits (vs.flatMap (lsb_bits b)) := by
    show bytes_of_bits (vs.flatMap (lsb_bits b) ++
      List.replicate ((8 - (vs.flatMap (lsb_bits b)).length % 8) % 8) 0) = _
    rw [hlenbits, hM]
    simp
  have hE : (bytes_of_bits (vs.flatMap (lsb_bits b))).flatMap byteBits
      = vs.flatMap (lsb_bits b) := by
    apply bytes_of_bits_roundtrip (vs.length * b / 8)
    · omega
    · exact hble
  unfold pack_bits
  rw [hspec, hE, if_neg (by omega : ¬b = 0), hlenbits,
    if_pos (Nat.mul_mod_left vs.length b),
    chunkList_bind (by omega) (lsb_bits b) (lsb_bits_length b) vs,
    List.map_map]
  congr 1
  have : ∀ v ∈ vs, (packRow b ∘ lsb_bits b) v = v := fun v hvmem =>
    packRow_lsb_bits b v hb1 hb2 (hv v hvmem)
  rw [List.map_congr_left this]
  simp

theorem pack_bits_byte_aligned (k : Nat) (hk1 : 1 ≤ k) (hk4 : k ≤ 4)
    (s : List Nat) (hs : ∀ x ∈ s, x < 256) :
    pack_bits s (8 * k) = fromBufferLE k s := by
  have hbitslen : (s.flatMap byteBits).length = s.length * 8 :=
    length_bind_const byteBits_length s
  by_cases hmod : s.length % k = 0
  · have hsl : s.length = k * (s.length / k) := by
      rw [Nat.mul_comm]
      exact (Nat.div_mul_cancel (Nat.dvd_of_mod_eq_zero hmod)).symm
    have hD := flatMap_le_val_chunks (by omega) (s.length / k) s hsl hs
    have hvlt : ∀ v ∈ (chunkList k s).map le_val, v < 2 ^ (8 * k) := by
      intro v hv
      obtain ⟨g, hgmem, rfl⟩ := List.mem_map.mp hv
      obtain ⟨hglen, hgsub⟩ := chunkList_mem (by omega) _ s g hsl hgmem
      have := le_val_lt g fun x hx => hs x (hgsub x hx)
      rw [hglen] at this
      calc le_val g < 256 ^ k := this
        _ = 2 ^ (8 * k) := by
          rw [pow_mul]
          norm_num
    have hvsmod : ((chunkList k s).map le_val).length * (8 * k) % 8 = 0 := by
      have : ((chunkList k s).map le_val).length * (8 * k)
          = 8 * (((chunkList k s).map le_val).length * k) := by ring
      rw [this, Nat.mul_mod_right]
    have hspec : spec_pack_le (8 * k) ((chunkList k s).map le_val) = s := by
      show bytes_of_bits (((chunkList k s).map le_val).flatMap (lsb_bits (8 * k)) ++
        List.replicate ((8 - (((chunkList k s).map le_val).flatMap
          (lsb_bits (8 * k))).length % 8) % 8) 0) = _
      rw [hD, hbitslen, Nat.mul_mod_left]
      simpa using bytes_of_bits_flatMap s hs
    have hmain := pack_bits_spec_roundtrip (8 * k) (by omega) (by omega)
      ((chunkList k s).map le_val) hvlt hvsmod
    rw [hspec] at hmain
    rw [hmain]
    unfold fromBufferLE
    rw [if_pos ⟨by omega, hmod⟩]
  · unfold pack_bits fromBufferLE
    rw [if_neg (by omega : ¬8 * k = 0), hbitslen]
    have hne : ¬s.length * 8 % (8 * k) = 0 := by
      have h1 : s.length * 8 = 8 * s.length := by ring
      rw [h1, Nat.mul_mod_mul_left]
      omega
    rw [if_neg hne, if_neg (by omega)]

theorem bits_to_int_pair (x y : Nat) (hx : x ≤ 1) (hy : y ≤ 1) :
    bits_to_int [x, y] = 2 * x + y := by
  rw [bits_to_int_eq_msb_val]
  · simp [msb_val]
    try ring
  · intro z hz
    simp at hz
    rcases hz with rfl | rfl <;> omega

theorem bits_to_int_quad (x y z v : Nat) (hx : x ≤ 1) (hy : y ≤ 1)
    (hz : z ≤ 1) (hv : v ≤ 1) :
    bits_to_int [x, y, z, v] = 8 * x + 4 * y + 2 * z + v := by
  rw [bits_to_int_eq_msb_val]
  · simp [msb_val]
    try ring
  · intro u hu
    simp at hu
    rcases hu with rfl | rfl | rfl | rfl <;> omega

theorem flag_compression_leBytes4 (w : Nat) :
    flag_compression (leBytes4 w) = w % 4 := by
  have hstep : flag_compression (leBytes4 w)
      = bits_to_int [((w % 256) >>> 1) &&& 1, ((w % 256) >>> 0) &&& 1] := rfl
  rw [hstep, bits_to_int_pair _ _ (and_one_le _) (and_one_le _)]
  simp only [Nat.shiftRight_eq_div_pow, Nat.and_one_is_mod]
  norm_num
  omega

theorem flag_layout_leBytes4 (w : Nat) :
    flag_layout (leBytes4 w) = w / 4 % 16 := by
  have hstep : flag_layout (leBytes4 w)
      = bits_to_int [((w % 256) >>> 5) &&& 1, ((w % 256) >>> 4) &&& 1,
          ((w % 256) >>> 3) &&& 1, ((w % 256) >>> 2) &&& 1] := rfl
  rw [hstep, bits_to_int_quad _ _ _ _ (and_one_le _) (and_one_le _)
    (and_one_le _) (and_one_le _)]
  simp only [Nat.shiftRight_eq_div_pow, Nat.and_one_is_mod]
  norm_num
  omega

theorem flag_has_sample_leBytes4 (w : Nat) (hw : w < 2 ^ 32) :
    (flag_has_sample (leBytes4 w) = true ↔ w / 2 ^ 31 % 2 = 1) := by
  have hstep : flag_has_sample (leBytes4 w)
      = (((w / 16777216 % 256) >>> 7) &&& 1 == 1) := rfl
  rw [hstep]
  simp only [beq_iff_eq, Nat.shiftRight_eq_div_pow, Nat.and_one_is_mod]
  norm_num at hw ⊢
  omega

theorem except_pure_bind {α β : Type} (x : α) (f : α → Except PyErr β) :
    (pure x : Except PyErr α) >>= f = f x := rfl

theorem except_throw_bind {α β : Type} (e : PyErr) (f : α → Except PyErr β) :
    (throw e : Except PyErr α) >>= f = Except.error e := rfl

theorem except_throw_eq (α : Type) (e : PyErr) :
    (throw e : Except PyErr α) = Except.error e := rfl

theorem parse_header_flag_true_layout_0 (w : Nat) (hL : w / 4 % 16 = 0) :
    parse_header_flag true (leBytes4 w) =
      Except.error (PyErr.valueError ErrMsg.invalidBgenFile) := by
  have hc4 : w % 4 = 0 ∨ w % 4 = 1 ∨ w % 4 = 2 ∨ w % 4 = 3 := by omega
  rcases hc4 with hc | hc | hc | hc <;>
    simp only [parse_header_flag, flag_compression_leBytes4,
      flag_layout_leBytes4, hc, hL] <;>
    norm_num [except_pure_bind, except_throw_bind, except_throw_eq]

theorem parse_header_flag_true_layout_gt2 (w : Nat) (hL : 2 < w / 4 % 16) :
    parse_header_flag true (leBytes4 w) =
      Except.error (PyErr.valueError ErrMsg.invalidLayoutType) := by
  have h0 : ¬w / 4 % 16 = 0 := by omega
  have h1 : ¬w / 4 % 16 = 1 := by omega
  have h2 : ¬w / 4 % 16 = 2 := by omega
  have hc4 : w % 4 = 0 ∨ w % 4 = 1 ∨ w % 4 = 2 ∨ w % 4 = 3 := by omega
  rcases hc4 with hc | hc | hc | hc <;>
    simp only [parse_header_flag, flag_compression_leBytes4,
      flag_layout_leBytes4, hc, h0, h1, h2] <;>
    norm_num [except_pure_bind, except_throw_bind, except_throw_eq]

theorem parse_header_flag_true_layout_1 (w : Nat) (hL : w / 4 % 16 = 1) :
    ∃ cfg, parse_header_flag true (leBytes4 w) = Except.ok cfg ∧
      cfg.layout = 1 := by
  have hc4 : w % 4 = 0 ∨ w % 4 = 1 ∨ w % 4 = 2 ∨ w % 4 = 3 := by omega
  rcases hc4 with hc | hc | hc | hc
  · refine ⟨HeaderFlags.mk false (some Codec.no_decompress) 1
      (flag_has_sample (leBytes4 w)), ?_, rfl⟩
    simp only [parse_header_flag, flag_compression_leBytes4,
      flag_layout_leBytes4, hc, hL]
    norm_num [except_pure_bind, except_throw_bind, except_throw_eq]
    try rfl
  · refine ⟨HeaderFlags.mk true (some Codec.zlib_decompress) 1
      (flag_has_sample (leBytes4 w)), ?_, rfl⟩
    simp only [parse_header_flag, flag_compression_leBytes4,
      flag_layout_leBytes4, hc, hL]
    norm_num [except_pure_bind, except_throw_bind, except_throw_eq]
    try rfl
  · refine ⟨HeaderFlags.mk true (some Codec.zstd_decompress) 1
      (flag_has_sample (leBytes4 w)), ?_, rfl⟩
    simp only [parse_header_flag, flag_compression_leBytes4,
      flag_layout_leBytes4, hc, hL]
    norm_num [except_pure_bind, except_throw_bind, except_throw_eq]
    try rfl
  · refine ⟨HeaderFlags.mk false none 1 (flag_has_sample (leBytes4 w)),
      ?_, rfl⟩
    simp only [parse_header_flag, flag_compression_leBytes4,
      flag_layout_leBytes4, hc, hL]
    norm_num [except_pure_bind, except_throw_bind, except_throw_eq]
    try rfl

theorem parse_header_flag_true_layout_2 (w : Nat) (hL : w / 4 % 16 = 2) :
    ∃ cfg, parse_header_flag true (leBytes4 w) = Except.ok cfg ∧
      cfg.layout = 2 := by
  have hc4 : w % 4 = 0 ∨ w % 4 = 1 ∨ w % 4 = 2 ∨ w % 4 = 3 := by omega
  rcases hc4 with hc | hc | hc | hc
  · refine ⟨HeaderFlags.mk false (some Codec.no_decompress) 2
      (flag_has_sample (leBytes4 w)), ?_, rfl⟩
    simp only [parse_header_flag, flag_compression_leBytes4,
      flag_layout_leBytes4, hc, hL]
    norm_num [except_pure_bind, except_throw_bind, except_throw_eq]
    try rfl
  · refine ⟨HeaderFlags.mk true (some Codec.zlib_decompress) 2
      (flag_has_sample (leBytes4 w)), ?_, rfl⟩
    simp only [parse_header_flag, flag_compression_leBytes4,
      flag_layout_leBytes4, hc, hL]
    norm_num [except_pure_bind, except_throw_bind, except_throw_eq]
    try rfl
  · refine ⟨HeaderFlags.mk true (some Codec.zstd_decompress) 2
      (flag_has_sample (leBytes4 w)), ?_, rfl⟩
    simp only [parse_header_flag, flag_compression_leBytes4,
      flag_layout_leBytes4, hc, hL]
    norm_num [except_pure_bind, except_throw_bind, except_throw_eq]
    try rfl
  · refine ⟨HeaderFlags.mk false none 2 (flag_has_sample (leBytes4 w)),
      ?_, rfl⟩
    simp only [parse_header_flag, flag_compression_leBytes4,
      flag_layout_leBytes4, hc, hL]
    norm_num [except_pure_bind, except_throw_bind, except_throw_eq]
    try rfl

theorem parse_header_flag_compression_3 (hasZstd : Bool) (w : Nat)
    (hc : w % 4 = 3) (hL : w / 4 % 16 = 1 ∨ w / 4 % 16 = 2) :
    ∃ cfg, parse_header_flag hasZstd (leBytes4 w) = Except.ok cfg ∧
      cfg.is_compressed = false ∧ cfg.codec = none := by
  rcases hL with hL | hL
  · refine ⟨HeaderFlags.mk false none 1 (flag_has_sample (leBytes4 w)),
      ?_, rfl, rfl⟩
    simp only [parse_header_flag, flag_compression_leBytes4,
      flag_layout_leBytes4, hc, hL]
    norm_num [except_pure_bind, except_throw_bind, except_throw_eq]
    try rfl
  · refine ⟨HeaderFlags.mk false none 2 (flag_has_sample (leBytes4 w)),
      ?_, rfl, rfl⟩
    simp only [parse_header_flag, flag_compression_leBytes4,
      flag_layout_leBytes4, hc, hL]
    norm_num [except_pure_bind, except_throw_bind, except_throw_eq]
    try rfl

theorem seq_read_all {R : Type} : ∀ (blocks : List (VBlock R)) (pos last : Nat),
    chain_from pos blocks → (∀ blk ∈ blocks, blk.start ≤ last) →
    seq_read last pos blocks = blocks.map VBlock.payload := by
  intro blocks
  induction blocks with
  | nil => intro pos last _ _; rfl
  | cons blk rest ih =>
    intro pos last hchain hle
    obtain ⟨hstart, hrest⟩ := hchain
    have hpos : pos ≤ last := hstart ▸ hle blk (by simp)
    simp only [seq_read, if_neg (by omega : ¬last < pos), List.map_cons]
    congr 1
    exact ih _ last hrest fun b hb => hle b (List.mem_cons_of_mem _ hb)

/-! ### Claim theorems -/

/-- C1: the claim says a layout-2 block whose min_ploidy or max_ploidy
differs from 2 must fail with the fatal ploidy error; the source tests
`min_ploidy != 2 and max_ploidy != 2`, so a block with min_ploidy 1 and
max_ploidy 2 is accepted and decodes to probabilities.  The concrete
decompressed buffer below (one sample, two alleles, ploidy bounds 1 and 2,
one non-missing sample, unphased, 8 bits, probabilities 255 and 0) is
accepted by the decoder even though the claim requires a fatal
UnsupportedVariant error. -/
theorem c1_ploidy_check_accepts_mixed :
    decode_layout_2_buffer 1
      ([1, 0, 0, 0] ++ [2, 0] ++ [1, 2] ++ [0] ++ [0] ++ [8] ++ [255, 0])
      = Except.ok ([((1 : ℚ), 0)], [false]) := by
  norm_num [decode_layout_2_buffer, readU32, missing_bit, unpackbitsRow,
    fromBufferLE, chunkList, chunk_aux, le_val, range_eight]
  rfl

/-- C2: the claim says an uncompressed layout-1 variant reads exactly
`6 * N` bytes of probability payload.  The source instead sets
`c = self._nb_samples` and reads only `N` bytes, after which the reshape
to `(N, 3)` cannot succeed: on an uncompressed stream that does hold the
`6 * N = 12` payload bytes for `N = 2` samples, the decoder reads 2 bytes
and fails with the numpy reshape `ValueError` instead of returning the
probability matrix. -/
theorem c2_layout_1_uncompressed_reads_n_bytes :
    get_curr_variant_probs_layout_1 id id 2
      { is_compressed := false, codec := some Codec.no_decompress,
        layout := 1, has_sample := false }
      (List.replicate 12 0)
      = Except.error (PyErr.valueError ErrMsg.cannotReshape) := by
  norm_num [get_curr_variant_probs_layout_1, run_codec, no_decompress,
    fromBufferLE, chunkList, chunk_aux, le_val, List.replicate]
  rfl

/-- C4 (counterexample): the stream `spec_pack_le 3 [1, 2]` is the
little-endian-bitwise packed byte stream holding the two width-3 values 1
and 2 (one byte, two zero padding bits), but `_pack_bits` fails on it (the
numpy reshape needs `8 * len(data)` divisible by `b`, and `8 % 3 ≠ 0`)
instead of returning the two encoded integers. -/
theorem c4_counterexample :
    pack_bits (spec_pack_le 3 [1, 2]) 3 = none ∧
      pack_bits (spec_pack_le 3 [1, 2]) 3 ≠ some [1, 2] := by decide

/-- C4 (amended): for bit widths 1..32, on a packed little-endian-bitwise
stream that consists exactly of the `M` encoded values with no padding
bits — that is, when `M * b` is a multiple of 8 — the bit unpacker
returns the `M` encoded integers; and for `b` in {8, 16, 32} the generic
unpacking path produces exactly the same result (including the
length-alignment failure cases) as reading packed little-endian `b`-bit
words with `np.frombuffer`. -/
theorem c4_bit_unpacker_amended (b : Nat) (hb1 : 1 ≤ b) (hb2 : b ≤ 32)
    (vs : List Nat) (hv : ∀ v ∈ vs, v < 2 ^ b)
    (hM : vs.length * b % 8 = 0) :
    pack_bits (spec_pack_le b vs) b = some vs ∧
    (∀ s : List Nat, (∀ x ∈ s, x < 256) →
      (b = 8 → pack_bits s b = fromBufferLE 1 s) ∧
      (b = 16 → pack_bits s b = fromBufferLE 2 s) ∧
      (b = 32 → pack_bits s b = fromBufferLE 4 s)) := by
  refine ⟨pack_bits_spec_roundtrip b hb1 hb2 vs hv hM, fun s hs => ⟨?_, ?_, ?_⟩⟩
  · intro h8
    subst h8
    exact pack_bits_byte_aligned 1 (by omega) (by omega) s hs
  · intro h16
    subst h16
    have := pack_bits_byte_aligned 2 (by omega) (by omega) s hs
    norm_num at this
    exact this
  · intro h32
    subst h32
    have := pack_bits_byte_aligned 4 (by omega) (by omega) s hs
    norm_num at this
    exact this

/-- C4 (witness): eight width-3 values occupy exactly three bytes, and the
unpacker recovers them. -/
theorem c4_bit_unpacker_amended_witness :
    pack_bits (spec_pack_le 3 [1, 2, 3, 4, 5, 6, 7, 0]) 3 =
      some [1, 2, 3, 4, 5, 6, 7, 0] :=
  (c4_bit_unpacker_amended 3 (by decide) (by decide) [1, 2, 3, 4, 5, 6, 7, 0]
    (by decide) (by decide)).1

/-- C8: the claim says mode "w" fails with a NotImplemented error and any
other non-"r" mode fails with an UnsupportedMode error, creating no reader
state.  The source does fail in both cases without creating a reader, and
unknown modes do raise `ValueError("invalid mode: ...")`; but in mode "w"
the statement `raise NotImplemented(...)` calls the non-callable
`NotImplemented` constant, so the error actually raised is a `TypeError`,
not a NotImplementedError. -/
theorem c8_mode_dispatch :
    pybgen_init ("w") (9 / 10) false = Except.error PyErr.typeError ∧
    pybgen_init ("w") (9 / 10) false ≠
      Except.error (PyErr.valueError ErrMsg.invalidMode) ∧
    pybgen_init ("x") (9 / 10) false =
      Except.error (PyErr.valueError ErrMsg.invalidMode) ∧
    pybgen_init ("rb") (9 / 10) false =
      Except.error (PyErr.valueError ErrMsg.invalidMode) := by
  refine ⟨rfl, ?_, rfl, rfl⟩
  intro h
  exact PyErr.noConfusion (Except.error.inj h)

/-- C3: for every layout-2 variant and sample, the returned dosage equals
`2 * P_homalt + P_het` with `P_homalt = 1 - P_homref - P_het`; when the
threshold `t > 0` a sample's dosage is NaN (`none`) unless the maximum of
its three probabilities reaches `t`; `t = 0` disables the filtering; and a
sample whose missing flag is set is NaN regardless of the threshold and of
the return mode (dosage or probabilities). -/
theorem c3_layout_2_dosage_threshold (probs : List (ℚ × ℚ))
    (missing : List Bool) (t : ℚ) (i : Nat) (p : ℚ × ℚ) (m : Bool)
    (hp : probs[i]? = some p) (hm : missing[i]? = some m) :
    (m = true →
      (layout_2_variant_dosage t probs missing)[i]? = some none ∧
      (layout_2_full_probs probs missing)[i]? = some none) ∧
    (m = false →
      (0 < t →
        (layout_2_variant_dosage t probs missing)[i]? =
          some (if t ≤ max p.1 (max p.2 (1 - p.1 - p.2))
            then some (2 * (1 - p.1 - p.2) + p.2) else none)) ∧
      (t = 0 →
        (layout_2_variant_dosage t probs missing)[i]? =
          some (some (2 * (1 - p.1 - p.2) + p.2)))) := by
  have he : 1 - (p.1 + p.2) = 1 - p.1 - p.2 := by ring
  have hlast : (get_layout_2_last_probs probs)[i]? = some (1 - (p.1 + p.2)) := by
    simp [get_layout_2_last_probs, List.getElem?_map, hp]
  have hd1 : (List.zipWith (fun q lastp => 2 * lastp + q.2) probs
      (get_layout_2_last_probs probs))[i]?
        = some (2 * (1 - (p.1 + p.2)) + p.2) := by
    rw [List.getElem?_zipWith', hp, hlast]
    rfl
  have hzip : (probs.zip (get_layout_2_last_probs probs))[i]?
      = some (p, 1 - (p.1 + p.2)) := by
    rw [List.zip_eq_zipWith, List.getElem?_zipWith', hp, hlast]
    rfl
  have hdosage : ∀ _ : 0 < t, (layout_2_probs_to_dosage t probs)[i]? =
      some (if t ≤ p.1 ∨ t ≤ p.2 ∨ t ≤ 1 - (p.1 + p.2)
        then some (2 * (1 - (p.1 + p.2)) + p.2) else none) := by
    intro ht
    unfold layout_2_probs_to_dosage
    rw [if_pos ht, List.getElem?_zipWith', hd1, hzip]
    rfl
  have hdosage0 : (layout_2_probs_to_dosage 0 probs)[i]? =
      some (some (2 * (1 - (p.1 + p.2)) + p.2)) := by
    unfold layout_2_probs_to_dosage
    rw [if_neg (by norm_num), List.getElem?_map, hd1]
    rfl
  constructor
  · rintro rfl
    constructor
    · unfold layout_2_variant_dosage apply_missing
      by_cases ht : 0 < t
      · rw [List.getElem?_zipWith', hm, hdosage ht]
        rfl
      · have ht0 : layout_2_probs_to_dosage t probs =
            (List.zipWith (fun q lastp => 2 * lastp + q.2) probs
              (get_layout_2_last_probs probs)).map some := by
          unfold layout_2_probs_to_dosage
          rw [if_neg ht]
        rw [List.getElem?_zipWith', hm, ht0, List.getElem?_map, hd1]
        rfl
    · unfold layout_2_full_probs
      have hfull : (List.zipWith (fun q lastp => (q.1, q.2, lastp)) probs
          (get_layout_2_last_probs probs))[i]?
            = some (p.1, p.2, 1 - (p.1 + p.2)) := by
        rw [List.getElem?_zipWith', hp, hlast]
        rfl
      rw [List.getElem?_zipWith', hm, hfull]
      rfl
  · rintro rfl
    constructor
    · intro ht
      unfold layout_2_variant_dosage apply_missing
      rw [List.getElem?_zipWith', hm, hdosage ht]
      have hiff : (t ≤ p.1 ∨ t ≤ p.2 ∨ t ≤ 1 - (p.1 + p.2)) ↔
          t ≤ max p.1 (max p.2 (1 - p.1 - p.2)) := by
        rw [le_max_iff, le_max_iff, he]
      show some (if t ≤ p.1 ∨ t ≤ p.2 ∨ t ≤ 1 - (p.1 + p.2)
        then some (2 * (1 - (p.1 + p.2)) + p.2) else none) = _
      exact congrArg some (if_congr hiff (by rw [he]) rfl)
    · rintro rfl
      unfold layout_2_variant_dosage apply_missing
      rw [List.getElem?_zipWith', hm, hdosage0, ← he]
      rfl

/-- C3 (witness): one non-missing sample with probabilities (1, 0) and
threshold 1/2; the dosage entry is retained by the threshold and equals
`2 * P_homalt + P_het`. -/
theorem c3_layout_2_dosage_threshold_witness :
    (layout_2_variant_dosage (1 / 2) [((1 : ℚ), 0)] [false])[0]? =
      some (if (1 : ℚ) / 2 ≤ max (1 : ℚ) (max 0 (1 - 1 - 0))
        then some (2 * (1 - 1 - 0) + 0) else none) :=
  ((c3_layout_2_dosage_threshold [((1 : ℚ), 0)] [false] (1 / 2) 0 (1, 0) false
    rfl rfl).2 rfl).1 (by norm_num)

/-- C5: on the four header flag bytes of a little-endian word `w`, the
parser extracts the compression kind from bits 0..1, the layout from bits
2..5 and the sample-identifiers flag from bit 31; with the zstd backend
present, parsing fails (with one of the two InvalidHeader `ValueError`s)
exactly when the layout field is 0 or greater than 2, and layout fields 1
and 2 resolve to stored layouts 1 (v1.1) and 2 (v1.2+). -/
theorem c5_header_flags (w : Nat) (hw : w < 2 ^ 32) :
    flag_compression (leBytes4 w) = w % 4 ∧
    flag_layout (leBytes4 w) = w / 4 % 16 ∧
    (flag_has_sample (leBytes4 w) = true ↔ w / 2 ^ 31 % 2 = 1) ∧
    ((∃ e, parse_header_flag true (leBytes4 w) = Except.error e) ↔
      (w / 4 % 16 = 0 ∨ 2 < w / 4 % 16)) ∧
    (∀ e, parse_header_flag true (leBytes4 w) = Except.error e →
      e = PyErr.valueError ErrMsg.invalidBgenFile ∨
        e = PyErr.valueError ErrMsg.invalidLayoutType) ∧
    (w / 4 % 16 = 1 → ∃ cfg, parse_header_flag true (leBytes4 w) =
      Except.ok cfg ∧ cfg.layout = 1) ∧
    (w / 4 % 16 = 2 → ∃ cfg, parse_header_flag true (leBytes4 w) =
      Except.ok cfg ∧ cfg.layout = 2) := by
  refine ⟨flag_compression_leBytes4 w, flag_layout_leBytes4 w,
    flag_has_sample_leBytes4 w hw, ?_, ?_,
    parse_header_flag_true_layout_1 w, parse_header_flag_true_layout_2 w⟩
  · constructor
    · rintro ⟨e, he⟩
      by_cases h1 : w / 4 % 16 = 1
      · obtain ⟨cfg, hcfg, _⟩ := parse_header_flag_true_layout_1 w h1
        rw [hcfg] at he
        exact absurd he (by simp)
      by_cases h2 : w / 4 % 16 = 2
      · obtain ⟨cfg, hcfg, _⟩ := parse_header_flag_true_layout_2 w h2
        rw [hcfg] at he
        exact absurd he (by simp)
      omega
    · rintro (hL | hL)
      · exact ⟨_, parse_header_flag_true_layout_0 w hL⟩
      · exact ⟨_, parse_header_flag_true_layout_gt2 w hL⟩
  · intro e he
    by_cases h0 : w / 4 % 16 = 0
    · rw [parse_header_flag_true_layout_0 w h0] at he
      left
      exact (Except.error.inj he).symm
    by_cases h1 : w / 4 % 16 = 1
    · obtain ⟨cfg, hcfg, _⟩ := parse_header_flag_true_layout_1 w h1
      rw [hcfg] at he
      exact absurd he (by simp)
    by_cases h2 : w / 4 % 16 = 2
    · obtain ⟨cfg, hcfg, _⟩ := parse_header_flag_true_layout_2 w h2
      rw [hcfg] at he
      exact absurd he (by simp)
    · have hgt : 2 < w / 4 % 16 := by omega
      rw [parse_header_flag_true_layout_gt2 w hgt] at he
      right
      exact (Except.error.inj he).symm

/-- C5 (witness): flags word 9 (compression 1, layout 2). -/
theorem c5_header_flags_witness :
    flag_compression (leBytes4 9) = 9 % 4 ∧
      flag_layout (leBytes4 9) = 9 / 4 % 16 :=
  ⟨(c5_header_flags 9 (by norm_num)).1, (c5_header_flags 9 (by norm_num)).2.1⟩

/-- C6: sequential iteration started at the first variant block yields one
record per variant block and stops exactly after the block at the
index-reported last offset, so the number of records equals the block
count, which `_connect_index` has checked against the header's
nb_variants.  The hypotheses state the well-formedness the index
guarantees: the cursor starts at the first block, the blocks are
contiguous, and every index offset is at most the reported maximum. -/
theorem c6_sequential_iteration {R : Type} (blocks : List (VBlock R))
    (first last nb_variants : Nat)
    (hchain : chain_from first blocks)
    (hle : ∀ blk ∈ blocks, blk.start ≤ last)
    (hcount : nb_variants = blocks.length) :
    seq_read last first blocks = blocks.map VBlock.payload ∧
    (seq_read last first blocks).length = nb_variants := by
  have h := seq_read_all blocks first last hchain hle
  exact ⟨h, by rw [h, List.length_map, hcount]⟩

/-- C6 (witness): a two-variant file with blocks at offsets 10 and 15. -/
theorem c6_sequential_iteration_witness :
    seq_read 15 10 [VBlock.mk 10 5 (0 : Nat), VBlock.mk 15 7 1] = [0, 1] ∧
    (seq_read 15 10 [VBlock.mk 10 5 (0 : Nat), VBlock.mk 15 7 1]).length
      = 2 := by
  have h := c6_sequential_iteration
    [VBlock.mk 10 5 (0 : Nat), VBlock.mk 15 7 1] 10 15 2
    (by norm_num [chain_from])
    (by intro blk hb
        simp at hb
        rcases hb with rfl | rfl <;> norm_num)
    rfl
  simpa using h

/-- C7: `get_variant(name)` returns the decoded records of all index rows
whose rsid equals the name, in index enumeration order, and raises the
UnknownVariant `ValueError` exactly when no index row has that rsid. -/
theorem c7_get_variant {R : Type} (idx : List IndexRow) (read_at : Nat → R)
    (name : String) :
    (get_variant idx read_at name =
        Except.error (PyErr.valueError ErrMsg.nameNotFound) ↔
      ∀ row ∈ idx, row.rsid ≠ name) ∧
    ((∃ row ∈ idx, row.rsid = name) →
      get_variant idx read_at name =
        Except.ok (((idx.filter fun row => row.rsid == name).map
          fun row => row.file_start_position).map read_at)) := by
  by_cases h : (idx.filter fun row => row.rsid == name) = []
  · have hval : get_variant idx read_at name =
        Except.error (PyErr.valueError ErrMsg.nameNotFound) := by
      unfold get_variant
      rw [h]
      rfl
    have hnone : ∀ row ∈ idx, row.rsid ≠ name := by
      intro row hrow
      have := List.filter_eq_nil_iff.mp h row hrow
      simpa using this
    refine ⟨by rw [hval]; exact iff_of_true rfl hnone, ?_⟩
    rintro ⟨row, hrow, hr⟩
    exact absurd hr (hnone row hrow)
  · have hval : get_variant idx read_at name =
        Except.ok (((idx.filter fun row => row.rsid == name).map
          fun row => row.file_start_position).map read_at) := by
      unfold get_variant
      rw [if_neg (by simp [h])]
    refine ⟨?_, fun _ => hval⟩
    rw [hval]
    constructor
    · intro he
      exact absurd he (by simp)
    · intro hnone
      exfalso
      apply h
      rw [List.filter_eq_nil_iff]
      intro row hrow
      simpa using hnone row hrow

/-- C7 (witness): an index with a duplicated rsid; both records come back,
and an unknown name errors. -/
theorem c7_get_variant_witness :
    get_variant [IndexRow.mk ("rs1") 10, IndexRow.mk ("rs2") 20,
      IndexRow.mk ("rs1") 30] (fun p => p) ("rs1") = Except.ok [10, 30] ∧
    get_variant [IndexRow.mk ("rs1") 10] (fun p => p) ("rsX") =
      Except.error (PyErr.valueError ErrMsg.nameNotFound) := by
  constructor
  · have h := (c7_get_variant [IndexRow.mk ("rs1") 10, IndexRow.mk ("rs2") 20,
      IndexRow.mk ("rs1") 30] (fun p => p) ("rs1")).2
      ⟨IndexRow.mk ("rs1") 10, by simp, rfl⟩
    simpa using h
  · exact (c7_get_variant [IndexRow.mk ("rs1") 10] (fun p => p) ("rsX")).1.mpr
      (by intro row hrow
          simp at hrow
          rw [hrow]
          decide)

/-- C9: a flags word whose compression field (bits 0..1) is 3 does not
make the open fail: the header parse succeeds (whatever the zstd backend
state), with is_compressed left `false` and `self._decompress` never
assigned; the failure surfaces only on the first variant-data read, as an
attribute error, for any stream contents. -/
theorem c9_compression_3_defers_failure (w : Nat) (hc : w % 4 = 3)
    (hL : w / 4 % 16 = 1 ∨ w / 4 % 16 = 2) (hasZstd : Bool)
    (zlibFn zstdFn : List Nat → List Nat) (nb_samples : Nat)
    (stream : List Nat) :
    ∃ cfg, parse_header_flag hasZstd (leBytes4 w) = Except.ok cfg ∧
      cfg.is_compressed = false ∧ cfg.codec = none ∧
      get_curr_variant_probs_layout_1 zlibFn zstdFn nb_samples cfg stream =
        Except.error PyErr.attributeError := by
  obtain ⟨cfg, hcfg, hic, hcodec⟩ :=
    parse_header_flag_compression_3 hasZstd w hc hL
  refine ⟨cfg, hcfg, hic, hcodec, ?_⟩
  rcases cfg with ⟨ic, cod, lay, hsmp⟩
  simp only at hic hcodec
  subst hic
  subst hcodec
  rfl

/-- C9 (witness): flags word 7 (compression field 3, layout 1). -/
theorem c9_compression_3_defers_failure_witness :
    ∃ cfg, parse_header_flag true (leBytes4 7) = Except.ok cfg ∧
      cfg.is_compressed = false ∧ cfg.codec = none ∧
      get_curr_variant_probs_layout_1 id id 0 cfg [] =
        Except.error PyErr.attributeError :=
  c9_compression_3_defers_failure 7 (by norm_num) (by norm_num) true id id 0 []

/-- C10: a negative probability threshold is accepted at open and stored
unchanged, and because every threshold test in the source is guarded by
`prob_t > 0`, decoding behaves exactly as with threshold 0: no threshold
filtering in either layout, and a layout-2 dosage entry is NaN exactly for
the samples whose missing flag is set. -/
theorem c10_negative_threshold (t : ℚ) (ht : t < 0) (probs_only : Bool)
    (probs : List (ℚ × ℚ)) (probs3 : List (ℚ × ℚ × ℚ))
    (missing : List Bool) :
    pybgen_init ("r") t probs_only =
      Except.ok { prob_t := t, return_probs := probs_only } ∧
    layout_2_probs_to_dosage t probs = layout_2_probs_to_dosage 0 probs ∧
    layout_1_probs_to_dosage t probs3 = layout_1_probs_to_dosage 0 probs3 ∧
    (∀ i m, missing[i]? = some m → i < probs.length →
      ∃ d, (layout_2_variant_dosage t probs missing)[i]? = some d ∧
        (d = none ↔ m = true)) := by
  have htn : ¬0 < t := not_lt.mpr (le_of_lt ht)
  refine ⟨rfl, ?_, ?_, ?_⟩
  · unfold layout_2_probs_to_dosage
    rw [if_neg htn, if_neg (lt_irrefl 0)]
  · unfold layout_1_probs_to_dosage
    rw [if_neg htn, if_neg (lt_irrefl 0)]
  · intro i m hm hi
    have hp : probs[i]? = some probs[i] := List.getElem?_eq_getElem hi
    set p := probs[i]
    have hlast : (get_layout_2_last_probs probs)[i]?
        = some (1 - (p.1 + p.2)) := by
      simp [get_layout_2_last_probs, List.getElem?_map, hp]
    have hd1 : (List.zipWith (fun q lastp => 2 * lastp + q.2) probs
        (get_layout_2_last_probs probs))[i]?
          = some (2 * (1 - (p.1 + p.2)) + p.2) := by
      rw [List.getElem?_zipWith', hp, hlast]
      rfl
    have hdos : (layout_2_probs_to_dosage t probs)[i]?
        = some (some (2 * (1 - (p.1 + p.2)) + p.2)) := by
      unfold layout_2_probs_to_dosage
      rw [if_neg htn, List.getElem?_map, hd1]
      rfl
    refine ⟨if m then none else some (2 * (1 - (p.1 + p.2)) + p.2), ?_, ?_⟩
    · unfold layout_2_variant_dosage apply_missing
      rw [List.getElem?_zipWith', hm, hdos]
      rfl
    · cases m <;> simp

/-- C10 (witness): threshold -1 on one missing and one present sample. -/
theorem c10_negative_threshold_witness :
    pybgen_init ("r") (-1) false =
      Except.ok { prob_t := -1, return_probs := false } ∧
    layout_2_probs_to_dosage (-1) [((1 : ℚ), 0)] =
      layout_2_probs_to_dosage 0 [((1 : ℚ), 0)] :=
  ⟨(c10_negative_threshold (-1) (by norm_num) false [((1 : ℚ), 0)] [] []).1,
   (c10_negative_threshold (-1) (by norm_num) false [((1 : ℚ), 0)] []
     []).2.1⟩

end PyBGEN
